import Mathlib

/-!
Shallow embedding of the duplicate-file indexing core of the repository
(src/cli/fs/treeitem.rs, src/cli/fs/treeindex.rs and the report commands of
examples/treetool/src/main.rs), together with proofs about the claims of the
natural-language specification.

Modelling conventions:
* Strings (paths, digests, text lines) are lists of Unicode scalar values
  (`Str := List Nat`).  Rust indexes strings by UTF-8 byte; every concrete
  string used below is ASCII, where the two notions coincide.
* File contents are lists of bytes (`List Nat`), the BLAKE2b-256 hex digest is
  an abstract function `hash : List Nat → Str` applied to exactly the bytes the
  Rust code feeds into the streaming hasher.
* The filesystem is an abstract partial map from path to contents; a present
  file never suffers an I/O error, a missing path models the `NotAFile` /
  metadata-failure cases.
* `HashMap<String, TreeItemDupes>` is modelled as an association list in
  insertion order; the Rust iteration order is unspecified, the list order is
  one realizable order.
-/

namespace BestPractices

/-- Strings as lists of Unicode scalar values. -/
abbrev Str := List Nat

/-- Convert a Lean string literal to the `Str` model. -/
def str (s : String) : Str := s.toList.map Char.toNat

/-- The Unicode White_Space code points, as tested by Rust `char::is_whitespace`. -/
def rustIsWs (c : Nat) : Bool :=
  c = 9 || c = 10 || c = 11 || c = 12 || c = 13 || c = 32 || c = 133 ||
  c = 160 || c = 5760 || (8192 ≤ c && c ≤ 8202) || c = 8232 || c = 8233 ||
  c = 8239 || c = 8287 || c = 12288

/-- The 1 MiB buffer size used by `TreeItemBuilder::build` (1_048_576 in the source). -/
def CHUNK : Nat := 1048576

/-- One `f.read(&mut buf)` call on a regular file whose contents are `content`
with the cursor at `pos`: returns `min CHUNK (content.length - pos)` bytes. -/
def readChunk (content : List Nat) (pos : Nat) : List Nat :=
  (content.drop pos).take CHUNK

/-- The read/seek loop of `TreeItemBuilder::build`: returns the concatenation of
all bytes fed to the hash state.  `pos` models both the file cursor and the
`num` counter (they stay equal throughout the Rust loop).  The `fuel` argument
makes the recursion structural; `fedBytes` supplies enough fuel. -/
def hashLoop (fast : Bool) (content : List Nat) : Nat → Nat → List Nat
  | _, 0 => []
  | pos, fuel + 1 =>
    if pos < content.length then
      -- the chunk just read is readChunk content pos, and num advances to
      -- pos + its length; in fast mode, when data remains unread in a > 1 MiB
      -- file, the cursor instead seeks to size - 1_048_575 = size - (CHUNK - 1)
      if fast ∧ pos + (readChunk content pos).length < content.length ∧
          CHUNK < content.length then
        readChunk content pos ++
          hashLoop fast content (content.length - (CHUNK - 1)) fuel
      else
        readChunk content pos ++
          hashLoop fast content (pos + (readChunk content pos).length) fuel
    else []

/-- All bytes hashed by `TreeItemBuilder::build` for a file with the given
contents, in order. -/
def fedBytes (fast : Bool) (content : List Nat) : List Nat :=
  hashLoop fast content 0 (content.length + 2)

/-- A `TreeItem`: digest, path and size of one file (treeitem.rs). -/
structure TreeItem where
  digest : Str
  path : Str
  size : Nat
deriving DecidableEq, Repr

/-- A `TreeItemDupes`: a primary item plus the paths of its suspected duplicates. -/
structure TreeItemDupes where
  item : TreeItem
  dupes : List Str
deriving DecidableEq, Repr

/-- A `TreeIndex` (`HashMap<String, TreeItemDupes>`) as an association list in
insertion order. -/
abbrev TreeIndex := List (Str × TreeItemDupes)

/-- `self.idx.get(&d)` / the read part of `get_mut`. -/
def idxLookup : TreeIndex → Str → Option TreeItemDupes
  | [], _ => none
  | (k, v) :: r, d => if k = d then some v else idxLookup r d

/-- `get_mut` followed by `item.push(p)`: append a duplicate path to the entry
stored under key `d` (no-op when the key is absent). -/
def idxPush : TreeIndex → Str → Str → TreeIndex
  | [], _, _ => []
  | (k, v) :: r, d, p =>
    if k = d then (k, { v with dupes := v.dupes ++ [p] }) :: r
    else (k, v) :: idxPush r d p

/-- `self.idx.insert(k, v)` for a key not already present. -/
def idxInsert (ti : TreeIndex) (k : Str) (v : TreeItemDupes) : TreeIndex :=
  ti ++ [(k, v)]

/-- The abstract filesystem: path to file contents (bytes). -/
def FS := Str → Option (List Nat)

/-- `fs::metadata(&p)` with the confirm arm's error handling: a failed metadata
lookup is treated as size 0. -/
def metaSize (fs : FS) (p : Str) : Nat :=
  match fs p with
  | some c => c.length
  | none => 0

/-- `TreeItemBuilder::new().fast(fast).path(&p).build()` over the abstract
filesystem: `NotAFile` (modelled as `Except.error ()`) when the path is not a
file, otherwise the digest of the bytes the read/seek loop feeds to the hasher,
the path, and the metadata size. -/
def buildItem (hash : List Nat → Str) (fs : FS) (fast : Bool) (p : Str) :
    Except Unit TreeItem :=
  match fs p with
  | none => .error ()
  | some c => .ok ⟨hash (fedBytes fast c), p, c.length⟩

/-- The full-mode digest of the file at `p`, when `p` is a file. -/
def digestOfFile (hash : List Nat → Str) (fs : FS) (p : Str) : Option Str :=
  (fs p).map fun c => hash (fedBytes false c)

/-- The item `Confirm` recomputes for a primary path: full-mode re-digest,
same path, current metadata size. -/
def confirmedItem (hash : List Nat → Str) (fs : FS) (p : Str) : Option TreeItem :=
  (fs p).map fun c => ⟨hash (fedBytes false c), p, c.length⟩

/-! ### The persisted text format -/

/-- The literal digest token of a duplicate continuation line. -/
def dupeTok : Str := [45]

/-- Rust `line.find(char::is_whitespace)` followed by `split_off(idx)` and
`rest[1..]`: split a line at its first whitespace character, dropping that
character.  `none` when the line contains no whitespace. -/
def splitFirstWs : Str → Option (Str × Str)
  | [] => none
  | c :: r =>
    if rustIsWs c then some ([], r)
    else
      match splitFirstWs r with
      | some (a, b) => some (c :: a, b)
      | none => none

/-- A single decimal digit of Rust u64 parsing. -/
def isDigitC (c : Nat) : Bool := 48 ≤ c && c ≤ 57

/-- Numeric value of a digit string. -/
def digitsVal (s : Str) : Nat := s.foldl (fun a c => a * 10 + (c - 48)) 0

/-- Rust `str::parse::<u64>()`: an optional leading `+`, then one or more ASCII
digits, value within u64 range. -/
def parseU64 (s : Str) : Option Nat :=
  let t := match s with
    | c :: r => if c = 43 then r else c :: r
    | [] => []
  if t ≠ [] ∧ t.all isDigitC then
    let v := digitsVal t
    if v < 18446744073709551616 then some v else none
  else none

/-- The errors of `Error::InvalidFormat` raised by the reader arm, with the
1-based line number they name (the Rust messages are
"missing digest on line n" and "missing size on line n"). -/
inductive FmtErr where
  | missingDigest (line : Nat)
  | missingSize (line : Nat)
deriving DecidableEq, Repr

/-- Outcome of `TreeIndexBuilder::build` on a reader: a built index, an
`Error::InvalidFormat` returned to the caller, or a panic (the `line.unwrap()`
call on an I/O error). -/
inductive BuildOutcome where
  | ok (ti : TreeIndex)
  | err (e : FmtErr)
  | panicked
deriving DecidableEq, Repr

/-- The shared tail of one reader-arm iteration: look the resolved digest up,
push the path as a duplicate when the key exists (and duplicate tracking is
on), otherwise insert a fresh single-member group. -/
def readerStep (wd : Bool) (ti : TreeIndex) (digest path : Str) (size : Nat) :
    TreeIndex :=
  match idxLookup ti digest with
  | some _ => if wd then idxPush ti digest path else ti
  | none => idxInsert ti digest ⟨⟨digest, path, size⟩, []⟩

/-- The reader arm of `TreeIndexBuilder::build`: process the lines yielded by
`BufReader::lines` (each either a line or an I/O error) with the running index,
the `last_digest` state and the `line_count`. -/
def readerLoop (wd : Bool) :
    List (Except Unit Str) → TreeIndex → Str → Nat → BuildOutcome
  | [], ti, _, _ => .ok ti
  | .error _ :: _, _, _, _ => .panicked
  | .ok line :: rest, ti, lastDigest, count =>
    let n := count + 1
    match splitFirstWs line with
    | none => .err (.missingDigest n)
    | some (digTok, afterDig) =>
      if digTok = dupeTok then
        readerLoop wd rest (readerStep wd ti lastDigest afterDig 0) lastDigest n
      else
        match splitFirstWs afterDig with
        | none => .err (.missingSize n)
        | some (sizeTok, path) =>
          readerLoop wd rest
            (readerStep wd ti digTok path ((parseU64 sizeTok).getD 0)) digTok n

/-- `TreeIndexBuilder::new().with_dupes(wd).from_reader(r).build()`:
`last_digest` starts as the literal "-", `line_count` at 0, the index empty. -/
def readerBuild (wd : Bool) (lines : List (Except Unit Str)) : BuildOutcome :=
  readerLoop wd lines [] dupeTok 0

/-- The list arm of `TreeIndexBuilder::build`: merge a `TreeList` by digest;
the first record of a digest becomes the primary, later ones become duplicates
when duplicate tracking is on and are discarded otherwise. -/
def listBuild (wd : Bool) (l : List TreeItem) : TreeIndex :=
  l.foldl
    (fun ti i =>
      match idxLookup ti i.digest with
      | some _ => if wd then idxPush ti i.digest i.path else ti
      | none => idxInsert ti i.digest ⟨i, []⟩)
    []

/-- The empty arm of `TreeIndexBuilder::build` (`TreeIndexFrom::New`). -/
def newBuild : TreeIndex := []

/-! ### The Confirm arm -/

/-- The inner loop of the confirm arm over one group's duplicate paths: re-read
the metadata size, skip on mismatch, otherwise fully re-digest the path (a
`NotAFile` failure aborts the whole build) and append it to the entry stored
under its re-computed digest, when such an entry exists. -/
def confirmDupes (hash : List Nat → Str) (fs : FS) (primSize : Nat) :
    List Str → TreeIndex → Except Unit TreeIndex
  | [], ti => .ok ti
  | p :: ps, ti =>
    if metaSize fs p = primSize then
      match buildItem hash fs false p with
      | .error e => .error e
      | .ok dupe =>
        match idxLookup ti dupe.digest with
        | some _ => confirmDupes hash fs primSize ps (idxPush ti dupe.digest dupe.path)
        | none => confirmDupes hash fs primSize ps ti
    else confirmDupes hash fs primSize ps ti

/-- The outer loop of the confirm arm over the input index entries: fully
re-digest the primary, insert the re-computed record under the input key `d`,
then confirm the recorded duplicates. -/
def confirmLoop (hash : List Nat → Str) (fs : FS) :
    List (Str × TreeItemDupes) → TreeIndex → Except Unit TreeIndex
  | [], ti => .ok ti
  | (d, g) :: rest, ti =>
    match buildItem hash fs false g.item.path with
    | .error e => .error e
    | .ok item =>
      match confirmDupes hash fs g.item.size g.dupes (idxInsert ti d ⟨item, []⟩) with
      | .error e => .error e
      | .ok ti2 => confirmLoop hash fs rest ti2

/-- `TreeIndexBuilder::new().confirm(&i).build()`. -/
def confirmBuild (hash : List Nat → Str) (fs : FS) (input : TreeIndex) :
    Except Unit TreeIndex :=
  confirmLoop hash fs input []

instance : DecidableEq (Except Unit TreeIndex)
  | .error a, .error b => isTrue rfl
  | .error _, .ok _ => isFalse fun h => Except.noConfusion h
  | .ok _, .error _ => isFalse fun h => Except.noConfusion h
  | .ok t1, .ok t2 =>
    if h : t1 = t2 then isTrue (by rw [h])
    else isFalse fun he => h (Except.ok.inj he)

/-! ### Serialization (Display for TreeItem / TreeItemDupes) -/

/-- Decimal digits of `n` (the `{}` rendering of a u64), fuel-structured. -/
def natDigitsAux : Nat → Nat → Str
  | 0, _ => []
  | fuel + 1, n =>
    if n < 10 then [48 + n] else natDigitsAux fuel (n / 10) ++ [48 + n % 10]

/-- Decimal rendering of `n`. -/
def natDigits (n : Nat) : Str := natDigitsAux (n + 1) n

/-- `Display for TreeItem`: `writeln!(f, "{} {} {}", digest, size, path)`. -/
def displayItem (it : TreeItem) : Str :=
  it.digest ++ [32] ++ natDigits it.size ++ [32] ++ it.path ++ [10]

/-- `Display for TreeItemDupes`: the primary line, then `- {path}` per dupe. -/
def displayDupes (g : TreeItemDupes) : Str :=
  displayItem g.item ++ (g.dupes.map fun p => [45, 32] ++ p ++ [10]).flatten

/-- Index serialization as performed by treetool: `write!(w, "{}", item)` over
the values of the index. -/
def serializeIndex (ti : TreeIndex) : Str :=
  (ti.map fun kv => displayDupes kv.2).flatten

/-- Strip one trailing carriage return, as `BufRead::lines` does on a line that
ended in `\r\n`. -/
def stripCR (l : Str) : Str := if l.getLast? = some 13 then l.dropLast else l

/-- Split a byte stream at `\n` as `BufRead::lines` does: lines lose their
terminator (and a trailing `\r`), a final fragment without terminator is
yielded as-is, and a terminal `\n` yields no extra empty line. -/
def splitLinesAux : Str → Str → List Str
  | [], acc => if acc = [] then [] else [acc.reverse]
  | c :: rest, acc =>
    if c = 10 then stripCR acc.reverse :: splitLinesAux rest []
    else splitLinesAux rest (c :: acc)

/-- The lines `BufReader::new(r).lines()` yields for the text `s`. -/
def rustLines (s : Str) : List Str := splitLinesAux s []

/-- The line contents (without terminators) the serializer emits for one
group: the primary line, then one continuation line per duplicate path, in
stored order. -/
def groupLines (g : TreeItemDupes) : List Str :=
  (g.item.digest ++ [32] ++ natDigits g.item.size ++ [32] ++ g.item.path) ::
    g.dupes.map fun p => [45, 32] ++ p

/-- The line contents of a whole serialized index. -/
def indexLines (ti : TreeIndex) : List Str :=
  (ti.map fun kv => groupLines kv.2).flatten

/-! ### The treetool dupes size report -/

/-- The size-summing loop of the `dupes size` command. -/
def totalDupeSize (ti : TreeIndex) : Nat :=
  ti.foldl (fun s kv => s + kv.2.item.size * kv.2.dupes.length) 0

/-- The value/unit pair printed by `dupes size` as
`Total saved {value} {unit}`. -/
def dupesSizeReport (ti : TreeIndex) : Nat × Str :=
  let size := totalDupeSize ti
  if 1073741824 < size then (size >>> 30, str "GB")
  else if 1048576 < size then (size >>> 20, str "MB")
  else if 1024 < size then (size >>> 10, str "KB")
  else (size, str "Bytes")

/-! ### Derived predicates used by the claims -/

/-- A string free of (Unicode) whitespace. -/
def wsFree (s : Str) : Bool := s.all fun c => !rustIsWs c

/-- A string free of line-break characters (LF and CR). -/
def noLB (s : Str) : Bool := s.all fun c => decide (c ≠ 10 ∧ c ≠ 13)

/-- A line the reader arm parses without a format error: it has a
whitespace-delimited digest token, and when that token is not the literal `-`
it also has a whitespace-delimited size token. -/
def lineWF (l : Str) : Bool :=
  match splitFirstWs l with
  | none => false
  | some (t, rest) => t = dupeTok || (splitFirstWs rest).isSome

/-- The format error the reader arm reports for the malformed line `l` at
1-based line number `n`. -/
def lineErr (l : Str) (n : Nat) : FmtErr :=
  match splitFirstWs l with
  | none => .missingDigest n
  | some _ => .missingSize n

/-- A duplicate continuation line: its digest token is the literal `-`. -/
def isDupeLine (l : Str) : Bool :=
  match splitFirstWs l with
  | none => false
  | some (t, _) => t = dupeTok

/-- The primary lines of a persisted text (every line that is not a
continuation line). -/
def primaryLines (lines : List Str) : List Str :=
  lines.filter fun l => !isDupeLine l

/-- The Index data-model invariant: every stored group's primary digest equals
the key it is stored under. -/
def InvariantHolds (ti : TreeIndex) : Prop :=
  ∀ kv ∈ ti, kv.2.item.digest = kv.1

instance (ti : TreeIndex) : Decidable (InvariantHolds ti) := by
  unfold InvariantHolds
  infer_instance

/-- `p` occurs as a duplicate path of some group of `ti`. -/
def hasDupe (ti : TreeIndex) (p : Str) : Prop :=
  ∃ kv ∈ ti, p ∈ kv.2.dupes

instance (ti : TreeIndex) (p : Str) : Decidable (hasDupe ti p) := by
  unfold hasDupe
  infer_instance

/-- The key and primary record of an entry (its duplicate list forgotten). -/
def keyItem (kv : Str × TreeItemDupes) : Str × TreeItem := (kv.1, kv.2.item)

/-- An entry of an abstract Index to which the serialization round-trip claim
applies: the data-model invariant (item digest = key, size a u64), a
whitespace-free key that is not the continuation token, and paths free of line
breaks. -/
def goodEntry (kv : Str × TreeItemDupes) : Prop :=
  kv.2.item.digest = kv.1 ∧ wsFree kv.1 ∧ kv.1 ≠ dupeTok ∧
  kv.2.item.size < 18446744073709551616 ∧ noLB kv.2.item.path ∧
  ∀ p ∈ kv.2.dupes, noLB p

instance (kv : Str × TreeItemDupes) : Decidable (goodEntry kv) := by
  unfold goodEntry
  infer_instance

/-! ### Concrete instances used by counterexamples and witnesses -/

/-- An index entry whose key is the literal `-` digest: permitted by the
round-trip claim's stated hypotheses, but not serializable faithfully. -/
def dashIdx : TreeIndex := [(dupeTok, ⟨⟨dupeTok, str "p", 5⟩, []⟩)]

/-- What deserializing the serialization of `dashIdx` actually produces. -/
def dashIdxRead : TreeIndex := [(dupeTok, ⟨⟨dupeTok, str "5 p", 0⟩, []⟩)]

/-- A small well-behaved index with one duplicate, for witnesses. -/
def okIdx : TreeIndex := [(str "d", ⟨⟨str "d", str "p", 5⟩, [str "q"]⟩)]

/-- A concrete hash function for the confirm counterexamples: contents `[0]`
digest to "x", contents `[1]` digest to "b", everything else to "z". -/
def exHash (c : List Nat) : Str :=
  if c = [0] then str "x" else if c = [1] then str "b" else str "z"

/-- A concrete filesystem for the confirm counterexamples: path "pa" holds the
byte `[0]`, path "pp" holds `[1]`, path "pb" holds `[2]`. -/
def exFs : FS := fun p =>
  if p = str "pa" then some [0]
  else if p = str "pp" then some [1]
  else if p = str "pb" then some [2]
  else none

/-- A one-entry input index whose stored key "a" differs from the full-mode
re-digest "x" of its primary's current contents. -/
def exIdxC1 : TreeIndex := [(str "a", ⟨⟨str "a", str "pa", 1⟩, []⟩)]

/-- A two-entry input index: the first group's duplicate "pp" re-digests to
"b", which is the second group's key and hence a key of the confirmed index,
but not yet a key when "pp" is checked. -/
def exIdxC3 : TreeIndex :=
  [(str "a", ⟨⟨str "a", str "pa", 1⟩, [str "pp"]⟩),
   (str "b", ⟨⟨str "b", str "pb", 1⟩, []⟩)]

/-- The group feeding the `dupes size` counterexample: primary size 1024 with
exactly 3 duplicate paths. -/
def exIdxC5 : TreeIndex :=
  [(str "d", ⟨⟨str "d", str "p", 1024⟩, [str "a", str "b", str "c"]⟩)]

/-- A group putting the reclaimable total at 2 MiB, for the MB-bucket witness. -/
def exIdxMB : TreeIndex := [(str "d", ⟨⟨str "d", str "p", 2097152⟩, [str "q"]⟩)]

/-- What Confirm produces from `exIdxC1`: the record re-digested to "x" is
stored under the original key "a". -/
def exOutC1 : TreeIndex := [(str "a", ⟨⟨str "x", str "pa", 1⟩, []⟩)]

/-- What Confirm produces from `exIdxC3`: the duplicate "pp" is dropped even
though its full digest "b" is a key of the result. -/
def exOutC3 : TreeIndex :=
  [(str "a", ⟨⟨str "x", str "pa", 1⟩, []⟩),
   (str "b", ⟨⟨str "z", str "pb", 1⟩, []⟩)]

/-- A (2 MiB + 1)-byte file of zeros. -/
def bigA : List Nat := List.replicate 2097153 0

/-- A (2 MiB + 1)-byte file differing from `bigA` in exactly the byte at
offset 1 MiB, which lies strictly between the first and the last MiB. -/
def bigB : List Nat := List.replicate 1048576 0 ++ 1 :: List.replicate 1048576 0

/-- A filesystem holding the two large files. -/
def bigFs : FS := fun p =>
  if p = str "f1" then some bigA
  else if p = str "f2" then some bigB
  else none

/-! ## The digest read/seek loop -/

theorem readChunk_length (content : List Nat) (pos : Nat) :
    (readChunk content pos).length = min CHUNK (content.length - pos) := by
  simp [readChunk]

theorem hashLoop_zero (fast : Bool) (content : List Nat) (pos : Nat) :
    hashLoop fast content pos 0 = [] := rfl

theorem hashLoop_succ (fast : Bool) (content : List Nat) (pos fuel : Nat) :
    hashLoop fast content pos (fuel + 1) =
      if pos < content.length then
        if fast ∧ pos + (readChunk content pos).length < content.length ∧
            CHUNK < content.length then
          readChunk content pos ++
            hashLoop fast content (content.length - (CHUNK - 1)) fuel
        else
          readChunk content pos ++
            hashLoop fast content (pos + (readChunk content pos).length) fuel
      else [] := rfl

theorem readChunk_append (content : List Nat) (pos : Nat) :
    readChunk content pos ++ content.drop (pos + (readChunk content pos).length) =
      content.drop pos := by
  have h1 : content.drop (pos + (readChunk content pos).length) =
      (content.drop pos).drop (readChunk content pos).length :=
    (List.drop_drop _ _ _).symm
  rw [h1]
  unfold readChunk
  rw [List.length_take]
  rcases Nat.le_total CHUNK (content.drop pos).length with h | h
  · rw [Nat.min_eq_left h]
    exact List.take_append_drop CHUNK (content.drop pos)
  · rw [Nat.min_eq_right h, List.take_of_length_le h,
      List.drop_eq_nil_of_le (Nat.le_refl _), List.append_nil]

theorem hashLoop_at_end (fast : Bool) (content : List Nat) (pos fuel : Nat)
    (h : content.length ≤ pos) : hashLoop fast content pos fuel = [] := by
  cases fuel with
  | zero => rfl
  | succ fuel => rw [hashLoop_succ, if_neg (Nat.not_lt.mpr h)]

theorem hashLoop_whole (fast : Bool) (content : List Nat)
    (hnf : fast = false ∨ content.length ≤ CHUNK) :
    ∀ fuel pos, content.length - pos ≤ fuel →
      hashLoop fast content pos fuel = content.drop pos := by
  intro fuel
  induction fuel with
  | zero =>
    intro pos h
    rw [hashLoop_zero]
    exact (List.drop_eq_nil_of_le (by omega)).symm
  | succ fuel ih =>
    intro pos h
    by_cases hp : pos < content.length
    · have hcond : ¬(fast ∧ pos + (readChunk content pos).length < content.length ∧
          CHUNK < content.length) := by
        rcases hnf with hf | hc
        · subst hf; simp
        · rintro ⟨-, -, hlt⟩; omega
      have hchunk := readChunk_length content pos
      have hC : CHUNK = 1048576 := rfl
      rw [hashLoop_succ, if_pos hp, if_neg hcond,
        ih (pos + (readChunk content pos).length) (by omega),
        readChunk_append]
    · rw [hashLoop_succ, if_neg hp]
      exact (List.drop_eq_nil_of_le (by omega)).symm

theorem fedBytes_false (content : List Nat) : fedBytes false content = content := by
  rw [fedBytes, hashLoop_whole false content (Or.inl rfl) _ 0 (by omega),
    List.drop_zero]

theorem fedBytes_true_small (content : List Nat) (h : content.length ≤ CHUNK) :
    fedBytes true content = content := by
  rw [fedBytes, hashLoop_whole true content (Or.inr h) _ 0 (by omega),
    List.drop_zero]

theorem fedBytes_true_big (content : List Nat) (h : CHUNK < content.length) :
    fedBytes true content =
      content.take CHUNK ++ content.drop (content.length - (CHUNK - 1)) := by
  have hC : CHUNK = 1048576 := rfl
  have hchunk0 : (readChunk content 0).length = CHUNK := by
    rw [readChunk_length]; omega
  have hpos2 : content.length - (CHUNK - 1) < content.length := by omega
  have hchunk2 : (readChunk content (content.length - (CHUNK - 1))).length =
      CHUNK - 1 := by
    rw [readChunk_length]; omega
  have hend : content.length - (CHUNK - 1) +
      (readChunk content (content.length - (CHUNK - 1))).length =
        content.length := by omega
  have hrc0 : readChunk content 0 = content.take CHUNK := by
    unfold readChunk; rw [List.drop_zero]
  have hrc2 : readChunk content (content.length - (CHUNK - 1)) =
      content.drop (content.length - (CHUNK - 1)) := by
    unfold readChunk
    exact List.take_of_length_le (by rw [List.length_drop]; omega)
  rw [fedBytes, show content.length + 2 = (content.length + 1) + 1 from rfl,
    hashLoop_succ, if_pos (show 0 < content.length by omega),
    if_pos ⟨rfl, by omega, h⟩, hashLoop_succ, if_pos hpos2,
    if_neg (by rintro ⟨-, hlt, -⟩; omega), hend,
    hashLoop_at_end true content _ _ (Nat.le_refl _), List.append_nil,
    hrc0, hrc2]

/-- C4: for any file of at most 1,048,576 bytes, `TreeItemBuilder::build`
produces the identical result in fast and in full mode, and in both modes the
bytes fed to the hasher are exactly the whole file. -/
theorem fast_full_equiv_small (hash : List Nat → Str) (fs : FS) (p : Str)
    (c : List Nat) (hc : fs p = some c) (hsize : c.length ≤ 1048576) :
    buildItem hash fs true p = buildItem hash fs false p ∧
      fedBytes true c = c ∧ fedBytes false c = c := by
  refine ⟨?_, fedBytes_true_small c hsize, fedBytes_false c⟩
  simp only [buildItem, hc, fedBytes_true_small c hsize, fedBytes_false c]

/-- C4 witness: the one-byte file "pa" digests identically in both modes. -/
theorem fast_full_equiv_small_witness :
    exFs (str "pa") = some [0] ∧ ([0] : List Nat).length ≤ 1048576 ∧
      (buildItem exHash exFs true (str "pa") = buildItem exHash exFs false (str "pa") ∧
        fedBytes true [0] = [0] ∧ fedBytes false [0] = [0]) :=
  ⟨by decide, by decide,
    fast_full_equiv_small exHash exFs (str "pa") [0] (by decide) (by decide)⟩

/-- C6: for two files of the same size exceeding 1,048,576 bytes that agree on
their first MiB and on their last MiB, fast-mode `TreeItemBuilder::build`
succeeds on both and produces the same digest. -/
theorem fast_middle_insensitive (hash : List Nat → Str) (fs : FS)
    (p1 p2 : Str) (c1 c2 : List Nat)
    (h1 : fs p1 = some c1) (h2 : fs p2 = some c2)
    (hlen : c1.length = c2.length) (hbig : 1048576 < c1.length)
    (hhead : c1.take 1048576 = c2.take 1048576)
    (htail : c1.drop (c1.length - 1048576) = c2.drop (c2.length - 1048576)) :
    ∃ t1 t2, buildItem hash fs true p1 = .ok t1 ∧
      buildItem hash fs true p2 = .ok t2 ∧ t1.digest = t2.digest := by
  have hC : CHUNK = 1048576 := rfl
  have hfed : fedBytes true c1 = fedBytes true c2 := by
    rw [fedBytes_true_big c1 (by omega), fedBytes_true_big c2 (by omega)]
    have ha : c1.length - (CHUNK - 1) = (c1.length - 1048576) + 1 := by omega
    have hb : c2.length - (CHUNK - 1) = (c2.length - 1048576) + 1 := by omega
    rw [ha, hb, ← List.drop_drop, ← List.drop_drop, htail, hC, hhead]
  exact ⟨_, _, by unfold buildItem; rw [h1], by unfold buildItem; rw [h2],
    by simp only [hfed]⟩

/-- C6 witness: two (2 MiB + 1)-byte files differing only in the byte at
offset 1 MiB receive the same fast-mode digest. -/
theorem fast_middle_insensitive_witness :
    bigFs (str "f1") = some bigA ∧ bigFs (str "f2") = some bigB ∧
      bigA.length = bigB.length ∧ 1048576 < bigA.length ∧
      bigA.take 1048576 = bigB.take 1048576 ∧
      bigA.drop (bigA.length - 1048576) = bigB.drop (bigB.length - 1048576) ∧
      ∃ t1 t2, buildItem exHash bigFs true (str "f1") = .ok t1 ∧
        buildItem exHash bigFs true (str "f2") = .ok t2 ∧
        t1.digest = t2.digest := by
  have hlen : bigA.length = bigB.length := by
    rw [bigA, bigB, List.length_replicate, List.length_append,
      List.length_cons, List.length_replicate]
  have hbig : 1048576 < bigA.length := by
    rw [bigA, List.length_replicate]; omega
  have hhead : bigA.take 1048576 = bigB.take 1048576 := by
    rw [bigA, bigB, List.take_replicate,
      List.take_append_of_le_length (by rw [List.length_replicate]),
      List.take_replicate,
      show min 1048576 2097153 = min 1048576 1048576 from by omega]
  have htail : bigA.drop (bigA.length - 1048576) =
      bigB.drop (bigB.length - 1048576) := by
    have ha : bigA.length - 1048576 = 1048577 := by
      rw [bigA, List.length_replicate]
    have hb : bigB.length - 1048576 = 1048577 := by
      rw [bigB, List.length_append, List.length_cons, List.length_replicate]
    rw [ha, hb, bigA, bigB, List.drop_replicate,
      show (2097153 : Nat) - 1048577 = 1048576 from by omega,
      show (1048577 : Nat) = (List.replicate 1048576 (0 : Nat)).length + 1
        from by rw [List.length_replicate],
      List.drop_append, List.drop_succ_cons, List.drop_zero]
  exact ⟨rfl, rfl, hlen, hbig, hhead, htail,
    fast_middle_insensitive exHash bigFs (str "f1") (str "f2") bigA bigB
      rfl rfl hlen hbig hhead htail⟩

/-! ## Parsing helpers -/

theorem splitFirstWs_append (a b : Str) (ha : wsFree a = true) :
    splitFirstWs (a ++ 32 :: b) = some (a, b) := by
  induction a with
  | nil => rfl
  | cons c l ih =>
    rw [wsFree, List.all_cons] at ha
    obtain ⟨hc, hl⟩ := Bool.and_eq_true_iff.mp ha
    rw [List.cons_append, splitFirstWs, if_neg (by simpa using hc),
      ih (by simpa [wsFree] using hl)]

theorem splitFirstWs_wsFree (l : Str) (h : wsFree l = true) :
    splitFirstWs l = none := by
  induction l with
  | nil => rfl
  | cons c r ih =>
    rw [wsFree, List.all_cons] at h
    obtain ⟨hc, hl⟩ := Bool.and_eq_true_iff.mp h
    rw [splitFirstWs, if_neg (by simpa using hc), ih (by simpa [wsFree] using hl)]

theorem isDigitC_not_ws (c : Nat) (h : isDigitC c = true) : rustIsWs c = false := by
  rw [isDigitC] at h
  obtain ⟨h1, h2⟩ := Bool.and_eq_true_iff.mp h
  simp only [decide_eq_true_eq] at h1 h2
  simp only [rustIsWs]
  simp only [Bool.or_eq_false_iff, decide_eq_false_iff_not, Bool.and_eq_false_iff]
  omega

theorem natDigitsAux_spec :
    ∀ fuel n, n < fuel →
      (natDigitsAux fuel n).all isDigitC = true ∧ natDigitsAux fuel n ≠ [] ∧
        digitsVal (natDigitsAux fuel n) = n := by
  intro fuel
  induction fuel with
  | zero => omega
  | succ fuel ih =>
    intro n hn
    by_cases h10 : n < 10
    · rw [natDigitsAux, if_pos h10]
      refine ⟨?_, by simp, ?_⟩
      · simp only [List.all_cons, List.all_nil, Bool.and_true, isDigitC]
        simp only [Bool.and_eq_true_iff, decide_eq_true_eq]
        omega
      · simp only [digitsVal, List.foldl_cons, List.foldl_nil]
        omega
    · have hrec : n / 10 < fuel := by omega
      obtain ⟨ha, hne, hv⟩ := ih (n / 10) hrec
      rw [natDigitsAux, if_neg h10]
      refine ⟨?_, by simp, ?_⟩
      · rw [List.all_append, ha, List.all_cons, List.all_nil]
        simp only [Bool.true_and, Bool.and_true, isDigitC]
        simp only [Bool.and_eq_true_iff, decide_eq_true_eq]
        omega
      · rw [digitsVal, List.foldl_append]
        rw [digitsVal] at hv
        rw [hv, List.foldl_cons, List.foldl_nil]
        omega

theorem natDigits_all (n : Nat) : (natDigits n).all isDigitC = true :=
  (natDigitsAux_spec (n + 1) n (Nat.lt_succ_self n)).1

theorem natDigits_ne_nil (n : Nat) : natDigits n ≠ [] :=
  (natDigitsAux_spec (n + 1) n (Nat.lt_succ_self n)).2.1

theorem digitsVal_natDigits (n : Nat) : digitsVal (natDigits n) = n :=
  (natDigitsAux_spec (n + 1) n (Nat.lt_succ_self n)).2.2

theorem natDigits_wsFree (n : Nat) : wsFree (natDigits n) = true := by
  have h := natDigits_all n
  rw [List.all_eq_true] at h
  rw [wsFree, List.all_eq_true]
  intro c hc
  simpa using isDigitC_not_ws c (h c hc)

theorem parseU64_natDigits (n : Nat) (h : n < 18446744073709551616) :
    parseU64 (natDigits n) = some n := by
  have hall := natDigits_all n
  have hne := natDigits_ne_nil n
  have hv := digitsVal_natDigits n
  rcases hd : natDigits n with - | ⟨c, r⟩
  · exact absurd hd hne
  · rw [hd, List.all_cons] at hall
    have hc43 : c ≠ 43 := by
      obtain ⟨hc, -⟩ := Bool.and_eq_true_iff.mp hall
      rw [isDigitC] at hc
      obtain ⟨h1, -⟩ := Bool.and_eq_true_iff.mp hc
      simp only [decide_eq_true_eq] at h1
      omega
    rw [hd] at hv
    rw [parseU64]
    simp only [if_neg hc43]
    rw [if_pos ⟨List.cons_ne_nil c r, by rw [List.all_cons]; exact hall⟩,
      if_pos (by rw [hv]; exact h), hv]

/-! ## Association-list index lemmas -/

theorem idxLookup_eq_none_iff (ti : TreeIndex) (k : Str) :
    idxLookup ti k = none ↔ k ∉ ti.map Prod.fst := by
  induction ti with
  | nil => simp [idxLookup]
  | cons kv rest ih =>
    obtain ⟨a, v⟩ := kv
    by_cases h : a = k
    · subst h; simp [idxLookup]
    · simp only [idxLookup, if_neg h, List.map_cons, List.mem_cons, ih]
      constructor
      · rintro hn (hk | hk)
        · exact h hk.symm
        · exact hn hk
      · intro hn hk
        exact hn (Or.inr hk)

theorem idxLookup_mem_of_some (ti : TreeIndex) (k : Str) (v : TreeItemDupes)
    (h : idxLookup ti k = some v) : k ∈ ti.map Prod.fst := by
  by_contra hmem
  rw [← idxLookup_eq_none_iff] at hmem
  rw [hmem] at h
  exact Option.noConfusion h

theorem idxLookup_some_of_mem (ti : TreeIndex) (k : Str)
    (h : k ∈ ti.map Prod.fst) : ∃ v, idxLookup ti k = some v := by
  rcases hl : idxLookup ti k with - | v
  · exact absurd ((idxLookup_eq_none_iff ti k).mp hl) (not_not_intro h)
  · exact ⟨v, rfl⟩

theorem idxLookup_append (t1 t2 : TreeIndex) (k : Str) :
    idxLookup (t1 ++ t2) k =
      match idxLookup t1 k with
      | some v => some v
      | none => idxLookup t2 k := by
  induction t1 with
  | nil => simp [idxLookup]
  | cons kv rest ih =>
    obtain ⟨a, v⟩ := kv
    by_cases h : a = k
    · subst h; simp [idxLookup]
    · simpa [idxLookup, if_neg h] using ih

theorem idxPush_map_keyItem (ti : TreeIndex) (k p : Str) :
    (idxPush ti k p).map keyItem = ti.map keyItem := by
  induction ti with
  | nil => rfl
  | cons kv rest ih =>
    obtain ⟨a, v⟩ := kv
    by_cases h : a = k
    · subst h; simp [idxPush, keyItem]
    · simpa [idxPush, if_neg h, keyItem] using ih

theorem map_fst_of_map_keyItem (t1 t2 : TreeIndex)
    (h : t1.map keyItem = t2.map keyItem) :
    t1.map Prod.fst = t2.map Prod.fst := by
  have h2 := congrArg (List.map Prod.fst) h
  simpa [List.map_map, Function.comp, keyItem] using h2

theorem idxPush_map_fst (ti : TreeIndex) (k p : Str) :
    (idxPush ti k p).map Prod.fst = ti.map Prod.fst :=
  map_fst_of_map_keyItem _ _ (idxPush_map_keyItem ti k p)

theorem idxPush_append_of_none (acc rest : TreeIndex) (k p : Str)
    (v : TreeItemDupes) (h : idxLookup acc k = none) :
    idxPush (acc ++ (k, v) :: rest) k p =
      acc ++ (k, { v with dupes := v.dupes ++ [p] }) :: rest := by
  induction acc with
  | nil => simp [idxPush]
  | cons kv acc ih =>
    obtain ⟨a, w⟩ := kv
    rw [idxLookup] at h
    by_cases ha : a = k
    · rw [if_pos ha] at h; exact Option.noConfusion h
    · rw [if_neg ha] at h
      simp only [List.cons_append, idxPush, if_neg ha, List.append_eq, ih h]

theorem hasDupe_nil (q : Str) : ¬ hasDupe [] q := by
  rintro ⟨kv, hmem, -⟩
  exact List.not_mem_nil kv hmem

theorem hasDupe_cons (kv : Str × TreeItemDupes) (rest : TreeIndex) (q : Str) :
    hasDupe (kv :: rest) q ↔ q ∈ kv.2.dupes ∨ hasDupe rest q := by
  constructor
  · rintro ⟨kw, hmem, hq⟩
    rcases List.mem_cons.mp hmem with h | h
    · exact Or.inl (h ▸ hq)
    · exact Or.inr ⟨kw, h, hq⟩
  · rintro (hq | ⟨kw, hmem, hq⟩)
    · exact ⟨kv, List.mem_cons_self kv rest, hq⟩
    · exact ⟨kw, List.mem_cons_of_mem kv hmem, hq⟩

theorem hasDupe_append (t1 t2 : TreeIndex) (q : Str) :
    hasDupe (t1 ++ t2) q ↔ hasDupe t1 q ∨ hasDupe t2 q := by
  constructor
  · rintro ⟨kv, hmem, hq⟩
    rcases List.mem_append.mp hmem with h | h
    · exact Or.inl ⟨kv, h, hq⟩
    · exact Or.inr ⟨kv, h, hq⟩
  · rintro (⟨kv, hmem, hq⟩ | ⟨kv, hmem, hq⟩)
    · exact ⟨kv, List.mem_append.mpr (Or.inl hmem), hq⟩
    · exact ⟨kv, List.mem_append.mpr (Or.inr hmem), hq⟩

theorem hasDupe_idxPush (ti : TreeIndex) (k p q : Str)
    (h : k ∈ ti.map Prod.fst) :
    hasDupe (idxPush ti k p) q ↔ hasDupe ti q ∨ q = p := by
  induction ti with
  | nil => simp at h
  | cons kv rest ih =>
    obtain ⟨a, v⟩ := kv
    by_cases ha : a = k
    · subst ha
      rw [idxPush, if_pos rfl, hasDupe_cons, hasDupe_cons]
      simp only [List.mem_append, List.mem_singleton]
      tauto
    · rw [List.map_cons, List.mem_cons] at h
      rcases h with h | h
      · exact absurd h.symm ha
      · rw [idxPush, if_neg ha, hasDupe_cons, hasDupe_cons, ih h]
        tauto

/-! ## Reader-arm unfolding lemmas -/

theorem readerLoop_nil (wd : Bool) (ti : TreeIndex) (lastd : Str) (count : Nat) :
    readerLoop wd [] ti lastd count = .ok ti := rfl

theorem readerLoop_ioError (wd : Bool) (e : Unit) (lines : List (Except Unit Str))
    (ti : TreeIndex) (lastd : Str) (count : Nat) :
    readerLoop wd (.error e :: lines) ti lastd count = .panicked := rfl

theorem readerLoop_cons_noDigest (wd : Bool) (line : Str)
    (lines : List (Except Unit Str)) (ti : TreeIndex) (lastd : Str) (count : Nat)
    (h : splitFirstWs line = none) :
    readerLoop wd (.ok line :: lines) ti lastd count =
      .err (.missingDigest (count + 1)) := by
  rw [readerLoop, h]

theorem readerLoop_cons_dupe (wd : Bool) (line : Str)
    (lines : List (Except Unit Str)) (ti : TreeIndex) (lastd : Str) (count : Nat)
    (rest : Str) (h : splitFirstWs line = some (dupeTok, rest)) :
    readerLoop wd (.ok line :: lines) ti lastd count =
      readerLoop wd lines (readerStep wd ti lastd rest 0) lastd (count + 1) := by
  rw [readerLoop, h]
  simp

theorem readerLoop_cons_noSize (wd : Bool) (line : Str)
    (lines : List (Except Unit Str)) (ti : TreeIndex) (lastd : Str) (count : Nat)
    (t rest : Str) (h1 : splitFirstWs line = some (t, rest)) (h2 : t ≠ dupeTok)
    (h3 : splitFirstWs rest = none) :
    readerLoop wd (.ok line :: lines) ti lastd count =
      .err (.missingSize (count + 1)) := by
  rw [readerLoop, h1]
  simp only [if_neg h2, h3]

theorem readerLoop_cons_prim (wd : Bool) (line : Str)
    (lines : List (Except Unit Str)) (ti : TreeIndex) (lastd : Str) (count : Nat)
    (t rest st pa : Str) (h1 : splitFirstWs line = some (t, rest))
    (h2 : t ≠ dupeTok) (h3 : splitFirstWs rest = some (st, pa)) :
    readerLoop wd (.ok line :: lines) ti lastd count =
      readerLoop wd lines (readerStep wd ti t pa ((parseU64 st).getD 0)) t
        (count + 1) := by
  rw [readerLoop, h1]
  simp only [if_neg h2, h3]

theorem readerLoop_wf_ok (wd : Bool) :
    ∀ (lines : List Str) (ti : TreeIndex) (lastd : Str) (count : Nat),
      (∀ l ∈ lines, lineWF l = true) →
      ∃ out, readerLoop wd (lines.map .ok) ti lastd count = .ok out := by
  intro lines
  induction lines with
  | nil => exact fun ti lastd count _ => ⟨ti, rfl⟩
  | cons l ls ih =>
    intro ti lastd count hwf
    have hl : lineWF l = true := hwf l (List.mem_cons_self l ls)
    have hls : ∀ x ∈ ls, lineWF x = true :=
      fun x hx => hwf x (List.mem_cons_of_mem l hx)
    rcases hsp : splitFirstWs l with - | ⟨t, rest⟩
    · simp only [lineWF, hsp] at hl
      exact Bool.noConfusion hl
    · by_cases ht : t = dupeTok
      · subst ht
        rw [List.map_cons, readerLoop_cons_dupe wd l _ _ _ _ rest hsp]
        exact ih _ _ _ hls
      · have hsome : (splitFirstWs rest).isSome = true := by
          simp only [lineWF, hsp, Bool.or_eq_true_iff, decide_eq_true_eq] at hl
          exact hl.resolve_left ht
        rcases Option.isSome_iff_exists.mp hsome with ⟨⟨st, pa⟩, hsp2⟩
        rw [List.map_cons, readerLoop_cons_prim wd l _ _ _ _ t rest st pa hsp ht hsp2]
        exact ih _ _ _ hls

theorem readerLoop_first_bad (wd : Bool) :
    ∀ (lines : List Str) (ti : TreeIndex) (lastd : Str) (count : Nat)
      (i : Nat) (hi : i < lines.length),
      (∀ j (hj : j < i), lineWF (lines.get ⟨j, lt_trans hj hi⟩) = true) →
      lineWF (lines.get ⟨i, hi⟩) = false →
      readerLoop wd (lines.map .ok) ti lastd count =
        .err (lineErr (lines.get ⟨i, hi⟩) (count + i + 1)) := by
  intro lines
  induction lines with
  | nil =>
    intro ti lastd count i hi
    simp at hi
  | cons l ls ih =>
    intro ti lastd count i hi hpre hbad
    cases i with
    | zero =>
      have hbad0 : lineWF l = false := hbad
      rcases hsp : splitFirstWs l with - | ⟨t, rest⟩
      · rw [List.map_cons, readerLoop_cons_noDigest wd l _ _ _ _ hsp]
        simp [lineErr, hsp]
      · simp only [lineWF, hsp, Bool.or_eq_false_iff, decide_eq_false_iff_not]
          at hbad0
        obtain ⟨ht, hns⟩ := hbad0
        rcases hsp2 : splitFirstWs rest with - | pr
        · rw [List.map_cons,
            readerLoop_cons_noSize wd l _ _ _ _ t rest hsp ht hsp2]
          simp [lineErr, hsp]
        · rw [hsp2] at hns
          simp at hns
    | succ i =>
      have hl : lineWF l = true := hpre 0 (Nat.succ_pos i)
      have hget : (l :: ls).get ⟨i + 1, hi⟩ = ls.get ⟨i, by simpa using hi⟩ := rfl
      have hnum : count + (i + 1) + 1 = (count + 1) + i + 1 := by omega
      have happly : ∀ (ti2 : TreeIndex) (lastd2 : Str),
          readerLoop wd (ls.map .ok) ti2 lastd2 (count + 1) =
            .err (lineErr ((l :: ls).get ⟨i + 1, hi⟩) (count + (i + 1) + 1)) := by
        intro ti2 lastd2
        rw [hget, hnum]
        exact ih ti2 lastd2 (count + 1) i (by simpa using hi)
          (fun j hj => hpre (j + 1) (by omega)) hbad
      rcases hsp : splitFirstWs l with - | ⟨t, rest⟩
      · simp only [lineWF, hsp] at hl
        exact Bool.noConfusion hl
      · by_cases ht : t = dupeTok
        · subst ht
          rw [List.map_cons, readerLoop_cons_dupe wd l _ _ _ _ rest hsp]
          exact happly _ _
        · have hsome : (splitFirstWs rest).isSome = true := by
            simp only [lineWF, hsp, Bool.or_eq_true_iff, decide_eq_true_eq] at hl
            exact hl.resolve_left ht
          rcases Option.isSome_iff_exists.mp hsome with ⟨⟨st, pa⟩, hsp2⟩
          rw [List.map_cons,
            readerLoop_cons_prim wd l _ _ _ _ t rest st pa hsp ht hsp2]
          exact happly _ _

/-- C7: deserialization fails with an invalid-format error exactly at the
grammar violations: when every line has a whitespace-delimited digest token and
every primary line a size token the build succeeds, and otherwise it aborts at
the first malformed line, reporting that line's 1-based number (a missing
digest for a line without whitespace, a missing size for a primary line whose
remainder has none), with no partial index returned. -/
theorem reader_format_errors (wd : Bool) (lines : List Str) :
    ((∀ l ∈ lines, lineWF l = true) →
      ∃ out, readerBuild wd (lines.map .ok) = .ok out) ∧
    (∀ i (hi : i < lines.length),
      (∀ j (hj : j < i), lineWF (lines.get ⟨j, lt_trans hj hi⟩) = true) →
      lineWF (lines.get ⟨i, hi⟩) = false →
      readerBuild wd (lines.map .ok) = .err (lineErr (lines.get ⟨i, hi⟩) (i + 1))) := by
  constructor
  · intro hwf
    exact readerLoop_wf_ok wd lines [] dupeTok 0 hwf
  · intro i hi hpre hbad
    have h := readerLoop_first_bad wd lines [] dupeTok 0 i hi hpre hbad
    rw [readerBuild, h, Nat.zero_add]

/-- C7 witness: the text whose second line is the whitespace-free line "x"
aborts with a missing-digest error naming line 2, while the well-formed
two-line text parses. -/
theorem reader_format_errors_witness :
    (∀ l ∈ [str "d 5 p", str "- q"], lineWF l = true) ∧
    (∃ out, readerBuild true ([str "d 5 p", str "- q"].map .ok) = .ok out) ∧
    (1 < ([str "d 5 p", str "x"]).length ∧
      lineWF (([str "d 5 p", str "x"]).get ⟨1, by decide⟩) = false ∧
      readerBuild true ([str "d 5 p", str "x"].map .ok) =
        .err (lineErr (([str "d 5 p", str "x"]).get ⟨1, by decide⟩) 2)) := by
  refine ⟨by decide, (reader_format_errors true [str "d 5 p", str "- q"]).1 (by decide),
    by decide, by decide, ?_⟩
  exact (reader_format_errors true [str "d 5 p", str "x"]).2 1 (by decide)
    (fun j hj => by
      have hj0 : j = 0 := by omega
      subst hj0
      show lineWF (str "d 5 p") = true
      decide)
    (by decide)

/-- C9: an I/O failure from the underlying reader is not surfaced as an error
result: the reader arm calls `line.unwrap()`, which panics, both when the
failure is on the first line and when it follows a well-formed line. -/
theorem reader_io_error_panics :
    readerBuild true [Except.error ()] = .panicked ∧
    readerBuild true [Except.ok (str "d 5 p"), Except.error ()] = .panicked ∧
    readerBuild false [Except.error ()] = .panicked := by
  refine ⟨rfl, ?_, rfl⟩
  decide

/-- C10: a primary line whose size token is present but not a valid decimal
u64 does not fail: the size falls back to 0 and the entry is inserted under
its digest. -/
theorem size_parse_failure_inserts (wd : Bool) (d s p : Str)
    (hd1 : wsFree d = true) (hd2 : d ≠ dupeTok)
    (hs1 : wsFree s = true) (hs2 : parseU64 s = none) :
    readerBuild wd [.ok (d ++ 32 :: (s ++ 32 :: p))] =
      .ok [(d, ⟨⟨d, p, 0⟩, []⟩)] := by
  rw [readerBuild,
    readerLoop_cons_prim wd _ _ _ _ _ d (s ++ 32 :: p) s p
      (splitFirstWs_append d (s ++ 32 :: p) hd1) hd2
      (splitFirstWs_append s p hs1),
    hs2]
  rfl

/-- C10 witness: the line "d x p" inserts digest "d", path "p", size 0. -/
theorem size_parse_failure_inserts_witness :
    wsFree (str "d") = true ∧ str "d" ≠ dupeTok ∧ wsFree (str "x") = true ∧
      parseU64 (str "x") = none ∧
      readerBuild true [.ok (str "d" ++ 32 :: (str "x" ++ 32 :: str "p"))] =
        .ok [(str "d", ⟨⟨str "d", str "p", 0⟩, []⟩)] :=
  ⟨by decide, by decide, by decide, by decide,
    size_parse_failure_inserts true (str "d") (str "x") (str "p")
      (by decide) (by decide) (by decide) (by decide)⟩

/-! ## Reading with duplicate tracking disabled (C8) -/

theorem readerLoop_false_skip (lines : List Str) :
    ∀ (acc : TreeIndex) (lastd : Str) (c1 c2 : Nat),
      (∀ l ∈ lines, lineWF l = true) → lastd ∈ acc.map Prod.fst →
      readerLoop false (lines.map .ok) acc lastd c1 =
        readerLoop false ((primaryLines lines).map .ok) acc lastd c2 := by
  induction lines with
  | nil => intro acc lastd c1 c2 _ _; rfl
  | cons l ls ih =>
    intro acc lastd c1 c2 hwf hmem
    have hl := hwf l (List.mem_cons_self l ls)
    have hls : ∀ x ∈ ls, lineWF x = true :=
      fun x hx => hwf x (List.mem_cons_of_mem l hx)
    rcases hsp : splitFirstWs l with - | ⟨t, rest⟩
    · simp only [lineWF, hsp] at hl
      exact Bool.noConfusion hl
    · by_cases ht : t = dupeTok
      · subst ht
        have hdupe : isDupeLine l = true := by simp [isDupeLine, hsp]
        have hfilter : primaryLines (l :: ls) = primaryLines ls := by
          simp [primaryLines, hdupe]
        rw [List.map_cons, readerLoop_cons_dupe false l _ _ _ _ rest hsp,
          hfilter]
        obtain ⟨v, hv⟩ := idxLookup_some_of_mem acc lastd hmem
        have hstep : readerStep false acc lastd rest 0 = acc := by
          rw [readerStep, hv]
          rfl
        rw [hstep]
        exact ih acc lastd (c1 + 1) c2 hls hmem
      · have hprim : isDupeLine l = false := by simp [isDupeLine, hsp, ht]
        have hfilter : primaryLines (l :: ls) = l :: primaryLines ls := by
          simp [primaryLines, hprim]
        have hsome : (splitFirstWs rest).isSome = true := by
          simp only [lineWF, hsp, Bool.or_eq_true_iff, decide_eq_true_eq] at hl
          exact hl.resolve_left ht
        rcases Option.isSome_iff_exists.mp hsome with ⟨⟨st, pa⟩, hsp2⟩
        rw [List.map_cons,
          readerLoop_cons_prim false l _ _ _ _ t rest st pa hsp ht hsp2,
          hfilter, List.map_cons,
          readerLoop_cons_prim false l _ _ _ _ t rest st pa hsp ht hsp2]
        apply ih _ _ _ _ hls
        rw [readerStep]
        rcases hlk : idxLookup acc t with - | v
        · simp [idxInsert]
        · exact idxLookup_mem_of_some acc t v hlk

/-- C8 (amended): with duplicate tracking disabled, for well-formed persisted
text whose first line is a primary line, every continuation line is parsed but
discarded, and the built index equals the one built from the primary lines
alone. -/
theorem reader_nodupes_primary_only (lines : List Str)
    (hwf : ∀ l ∈ lines, lineWF l = true)
    (hfirst : ∀ l, lines.head? = some l → isDupeLine l = false) :
    readerBuild false (lines.map .ok) =
      readerBuild false ((primaryLines lines).map .ok) := by
  cases lines with
  | nil => rfl
  | cons l ls =>
    have hl := hwf l (List.mem_cons_self l ls)
    have hls : ∀ x ∈ ls, lineWF x = true :=
      fun x hx => hwf x (List.mem_cons_of_mem l hx)
    have hd : isDupeLine l = false := hfirst l rfl
    rcases hsp : splitFirstWs l with - | ⟨t, rest⟩
    · simp only [lineWF, hsp] at hl
      exact Bool.noConfusion hl
    · have ht : t ≠ dupeTok := by
        simp only [isDupeLine, hsp, decide_eq_false_iff_not] at hd
        exact hd
      have hsome : (splitFirstWs rest).isSome = true := by
        simp only [lineWF, hsp, Bool.or_eq_true_iff, decide_eq_true_eq] at hl
        exact hl.resolve_left ht
      rcases Option.isSome_iff_exists.mp hsome with ⟨⟨st, pa⟩, hsp2⟩
      have hprim : isDupeLine l = false := by simp [isDupeLine, hsp, ht]
      have hfilter : primaryLines (l :: ls) = l :: primaryLines ls := by
        simp [primaryLines, hprim]
      rw [readerBuild, readerBuild, hfilter, List.map_cons, List.map_cons,
        readerLoop_cons_prim false l _ _ _ _ t rest st pa hsp ht hsp2,
        readerLoop_cons_prim false l _ _ _ _ t rest st pa hsp ht hsp2]
      apply readerLoop_false_skip ls _ _ _ _ hls
      rw [readerStep]
      rcases hlk : idxLookup [] t with - | v
      · simp [idxInsert]
      · exact idxLookup_mem_of_some [] t v hlk

/-- C8 counterexample: the single well-formed continuation line "- p", read
with duplicate tracking disabled, creates an entry under the key "-" instead
of being discarded, so the result differs from the index built from the (empty)
primary lines alone. -/
theorem reader_nodupes_counterexample :
    (∀ l ∈ [str "- p"], lineWF l = true) ∧
    primaryLines [str "- p"] = [] ∧
    readerBuild false ([str "- p"].map .ok) =
      .ok [(dupeTok, ⟨⟨dupeTok, str "p", 0⟩, []⟩)] ∧
    readerBuild false ((primaryLines [str "- p"]).map .ok) = .ok [] ∧
    readerBuild false ([str "- p"].map .ok) ≠
      readerBuild false ((primaryLines [str "- p"]).map .ok) := by
  decide

/-- C8 witness: a three-line text starting with a primary line builds the same
index as its primary lines alone when duplicate tracking is disabled. -/
theorem reader_nodupes_primary_only_witness :
    (∀ l ∈ [str "d 5 p", str "- q", str "e 7 r"], lineWF l = true) ∧
    ([str "d 5 p", str "- q", str "e 7 r"]).head? = some (str "d 5 p") ∧
    isDupeLine (str "d 5 p") = false ∧
    readerBuild false ([str "d 5 p", str "- q", str "e 7 r"].map .ok) =
      readerBuild false
        ((primaryLines [str "d 5 p", str "- q", str "e 7 r"]).map .ok) :=
  ⟨by decide, by decide, by decide,
    reader_nodupes_primary_only _ (by decide)
      (fun l hl => by cases hl; decide)⟩

/-! ## Serialization and line splitting (towards C2) -/

theorem noLB_mem (l : Str) (h : noLB l = true) :
    ∀ c ∈ l, c ≠ 10 ∧ c ≠ 13 := by
  rw [noLB, List.all_eq_true] at h
  intro c hc
  simpa using h c hc

theorem noLB_append (a b : Str) :
    noLB (a ++ b) = (noLB a && noLB b) := by
  rw [noLB, noLB, noLB, List.all_append]

theorem wsFree_noLB (l : Str) (h : wsFree l = true) : noLB l = true := by
  rw [wsFree, List.all_eq_true] at h
  rw [noLB, List.all_eq_true]
  intro c hc
  have hcw : rustIsWs c = false := by simpa using h c hc
  simp only [rustIsWs, Bool.or_eq_false_iff, decide_eq_false_iff_not,
    Bool.and_eq_false_iff] at hcw
  simp only [decide_eq_true_eq]
  omega

theorem natDigits_noLB (n : Nat) : noLB (natDigits n) = true :=
  wsFree_noLB _ (natDigits_wsFree n)

theorem stripCR_of_noLB (l : Str) (h : noLB l = true) : stripCR l = l := by
  rw [stripCR]
  rcases hl : l.getLast? with - | c
  · rw [if_neg (fun heq => Option.noConfusion heq)]
  · have hc13 : c ≠ 13 :=
      (noLB_mem l h c (List.mem_of_getLast?_eq_some hl)).2
    rw [if_neg (fun heq => hc13 (Option.some.inj heq))]

theorem splitLinesAux_line :
    ∀ (l acc s : Str), (∀ c ∈ l, c ≠ 10) →
      splitLinesAux (l ++ 10 :: s) acc =
        stripCR (acc.reverse ++ l) :: splitLinesAux s [] := by
  intro l
  induction l with
  | nil =>
    intro acc s _
    simp [splitLinesAux]
  | cons c l ih =>
    intro acc s h
    have hc : c ≠ 10 := h c (List.mem_cons_self c l)
    rw [List.cons_append, splitLinesAux, if_neg hc,
      ih (c :: acc) s (fun x hx => h x (List.mem_cons_of_mem c hx)),
      List.reverse_cons, List.append_assoc, List.singleton_append]

theorem rustLines_line (l s : Str) (h : noLB l = true) :
    rustLines (l ++ 10 :: s) = l :: rustLines s := by
  rw [rustLines, splitLinesAux_line l [] s (fun c hc => (noLB_mem l h c hc).1),
    List.reverse_nil, List.nil_append, stripCR_of_noLB l h, rustLines]

theorem rustLines_dupLines :
    ∀ (ps : List Str) (s : Str), (∀ p ∈ ps, noLB p = true) →
      rustLines ((ps.map fun p => [45, 32] ++ p ++ [10]).flatten ++ s) =
        (ps.map fun p => [45, 32] ++ p) ++ rustLines s := by
  intro ps
  induction ps with
  | nil => intro s _; simp
  | cons p ps ih =>
    intro s h
    have hp : noLB ([45, 32] ++ p) = true := by
      rw [noLB_append, h p (List.mem_cons_self p ps)]
      rfl
    rw [List.map_cons, List.flatten_cons, List.map_cons, List.append_assoc,
      List.append_assoc, List.singleton_append,
      rustLines_line _ _ hp,
      ih s (fun x hx => h x (List.mem_cons_of_mem p hx))]
    rfl

theorem goodEntry_primary_noLB (k : Str) (g : TreeItemDupes)
    (hg : goodEntry (k, g)) :
    noLB (g.item.digest ++ [32] ++ natDigits g.item.size ++ [32] ++
      g.item.path) = true := by
  obtain ⟨hdig, hws, -, -, hpath, -⟩ := hg
  have hwsd : wsFree g.item.digest = true := by rw [hdig]; exact hws
  rw [noLB_append, noLB_append, noLB_append, noLB_append,
    wsFree_noLB _ hwsd, natDigits_noLB, hpath]
  rfl

theorem rustLines_serialize (ti : TreeIndex)
    (hg : ∀ kv ∈ ti, goodEntry kv) :
    rustLines (serializeIndex ti) = indexLines ti := by
  induction ti with
  | nil => rfl
  | cons kv rest ih =>
    obtain ⟨k, g⟩ := kv
    have hgkg := hg (k, g) (List.mem_cons_self _ _)
    have hgr : ∀ x ∈ rest, goodEntry x :=
      fun x hx => hg x (List.mem_cons_of_mem _ hx)
    have hser : serializeIndex ((k, g) :: rest) =
        displayDupes g ++ serializeIndex rest := by
      simp [serializeIndex]
    have hidx : indexLines ((k, g) :: rest) =
        groupLines g ++ indexLines rest := by
      simp [indexLines]
    rw [hser, hidx, displayDupes, displayItem]
    rw [List.append_assoc (g.item.digest ++ [32] ++ natDigits g.item.size ++
      [32] ++ g.item.path), List.singleton_append, List.append_assoc,
      List.cons_append]
    rw [rustLines_line _ _ (goodEntry_primary_noLB k g hgkg)]
    have hdupes : ∀ p ∈ g.dupes, noLB p = true := hgkg.2.2.2.2.2
    rw [rustLines_dupLines g.dupes _ hdupes, ih hgr, groupLines,
      List.cons_append]

/-! ## Parsing a serialized index back (towards C2) -/

theorem idxLookup_append_single (pre : TreeIndex) (k : Str) (v : TreeItemDupes)
    (h : idxLookup pre k = none) : idxLookup (pre ++ [(k, v)]) k = some v := by
  rw [idxLookup_append, h]
  simp [idxLookup]

theorem idxLookup_singleton_ne (k q : Str) (v : TreeItemDupes) (h : k ≠ q) :
    idxLookup [(k, v)] q = none := by
  simp [idxLookup, h]

theorem readerLoop_dupes (ps : List Str) :
    ∀ (pre : TreeIndex) (k : Str) (it : TreeItem) (ds : List Str)
      (lines : List (Except Unit Str)) (count : Nat),
      idxLookup pre k = none →
      readerLoop true ((ps.map fun p => [45, 32] ++ p).map .ok ++ lines)
          (pre ++ [(k, ⟨it, ds⟩)]) k count =
        readerLoop true lines (pre ++ [(k, ⟨it, ds ++ ps⟩)]) k
          (count + ps.length) := by
  induction ps with
  | nil =>
    intro pre k it ds lines count _
    simp
  | cons p ps ih =>
    intro pre k it ds lines count h
    have hsp : splitFirstWs ([45, 32] ++ p) = some (dupeTok, p) := rfl
    rw [List.map_cons, List.map_cons, List.cons_append,
      readerLoop_cons_dupe true _ _ _ _ _ p hsp]
    have hlk : idxLookup (pre ++ [(k, ⟨it, ds⟩)]) k = some ⟨it, ds⟩ :=
      idxLookup_append_single pre k ⟨it, ds⟩ h
    have hstep : readerStep true (pre ++ [(k, ⟨it, ds⟩)]) k p 0 =
        pre ++ [(k, ⟨it, ds ++ [p]⟩)] := by
      rw [readerStep, hlk]
      show idxPush (pre ++ [(k, ⟨it, ds⟩)]) k p = pre ++ [(k, ⟨it, ds ++ [p]⟩)]
      exact idxPush_append_of_none pre [] k p ⟨it, ds⟩ h
    rw [hstep,
      show ds ++ p :: ps = (ds ++ [p]) ++ ps from by
        rw [List.append_assoc, List.singleton_append],
      show count + (p :: ps).length = (count + 1) + ps.length from by
        rw [List.length_cons]; omega]
    exact ih pre k it (ds ++ [p]) lines (count + 1) h

theorem readerLoop_groups (ti : TreeIndex) :
    ∀ (acc : TreeIndex) (lastd : Str) (count : Nat),
      (∀ kv ∈ ti, goodEntry kv) →
      (∀ kv ∈ ti, idxLookup acc kv.1 = none) →
      (ti.map Prod.fst).Nodup →
      readerLoop true ((indexLines ti).map .ok) acc lastd count =
        .ok (acc ++ ti) := by
  induction ti with
  | nil =>
    intro acc lastd count _ _ _
    simp [indexLines, readerLoop_nil]
  | cons kv rest ih =>
    obtain ⟨k, g⟩ := kv
    intro acc lastd count hg hfresh hnd
    obtain ⟨hdig0, hws0, hnotdupe0, hsize0, hpath0, hdupes0⟩ :=
      hg (k, g) (List.mem_cons_self _ _)
    have hdig : g.item.digest = k := hdig0
    have hsize : g.item.size < 18446744073709551616 := hsize0
    have hws2 : wsFree g.item.digest = true := by rw [hdig]; exact hws0
    have hnd2 : g.item.digest ≠ dupeTok := by rw [hdig]; exact hnotdupe0
    have hlines : indexLines ((k, g) :: rest) =
        groupLines g ++ indexLines rest := by
      simp [indexLines]
    have hshape : g.item.digest ++ [32] ++ natDigits g.item.size ++ [32] ++
        g.item.path =
        g.item.digest ++ 32 :: (natDigits g.item.size ++ 32 :: g.item.path) := by
      rw [List.append_assoc, List.append_assoc, List.append_assoc,
        List.singleton_append, List.singleton_append]
    rw [hlines, List.map_append, groupLines, List.map_cons, List.cons_append,
      hshape,
      readerLoop_cons_prim true _ _ _ _ _ g.item.digest
        (natDigits g.item.size ++ 32 :: g.item.path) (natDigits g.item.size)
        g.item.path (splitFirstWs_append _ _ hws2) hnd2
        (splitFirstWs_append _ _ (natDigits_wsFree _))]
    have hparse : (parseU64 (natDigits g.item.size)).getD 0 = g.item.size := by
      rw [parseU64_natDigits _ hsize]
      rfl
    have hlkup : idxLookup acc g.item.digest = none := by
      rw [hdig]
      exact hfresh (k, g) (List.mem_cons_self _ _)
    have hstep : readerStep true acc g.item.digest g.item.path g.item.size =
        acc ++ [(k, ⟨g.item, []⟩)] := by
      rw [readerStep, hlkup]
      show idxInsert acc g.item.digest
          ⟨⟨g.item.digest, g.item.path, g.item.size⟩, []⟩ =
        acc ++ [(k, ⟨g.item, []⟩)]
      rw [idxInsert, ← hdig]
    rw [hparse, hstep, hdig,
      readerLoop_dupes g.dupes acc k g.item [] ((indexLines rest).map .ok)
        (count + 1) (by rw [← hdig]; exact hlkup),
      List.nil_append]
    have hfresh2 : ∀ kv ∈ rest, idxLookup (acc ++ [(k, ⟨g.item, g.dupes⟩)])
        kv.1 = none := by
      intro kv hkv
      have hk : k ≠ kv.1 := by
        rw [List.map_cons, List.nodup_cons] at hnd
        intro heq
        exact hnd.1 (heq ▸ List.mem_map.mpr ⟨kv, hkv, rfl⟩)
      rw [idxLookup_append, hfresh kv (List.mem_cons_of_mem _ hkv)]
      exact idxLookup_singleton_ne k kv.1 ⟨g.item, g.dupes⟩ hk
    have hnd3 : (rest.map Prod.fst).Nodup := by
      rw [List.map_cons, List.nodup_cons] at hnd
      exact hnd.2
    have hfin : (acc ++ [(k, (⟨g.item, g.dupes⟩ : TreeItemDupes))]) ++ rest =
        acc ++ (k, g) :: rest := by
      rw [List.append_assoc, List.singleton_append]
    rw [← hfin]
    exact ih (acc ++ [(k, ⟨g.item, g.dupes⟩)]) k (count + 1 + g.dupes.length)
      (fun x hx => hg x (List.mem_cons_of_mem _ hx)) hfresh2 hnd3

/-- C2 (amended): serializing an Index and deserializing the text with
duplicate tracking enabled reproduces the Index exactly — the same (digest →
primary record, duplicate-path-sequence) pairs — provided every path contains
no line break, every digest is whitespace-free, keys are distinct u64-sized
entries satisfying the data-model invariant, and additionally no digest is the
literal continuation token "-". -/
theorem serialize_roundtrip (ti : TreeIndex)
    (hnd : (ti.map Prod.fst).Nodup) (hg : ∀ kv ∈ ti, goodEntry kv) :
    readerBuild true ((rustLines (serializeIndex ti)).map .ok) = .ok ti := by
  rw [rustLines_serialize ti hg, readerBuild,
    readerLoop_groups ti [] dupeTok 0 hg (fun kv _ => rfl) hnd,
    List.nil_append]

/-- C2 counterexample: the one-entry index keyed by the whitespace-free digest
"-" (paths UTF-8 and line-break-free, so it satisfies the claim's stated
hypotheses) does not round-trip: its primary line re-parses as a continuation
line, yielding a different (path "5 p", size 0) record. -/
theorem serialize_roundtrip_counterexample :
    (∀ kv ∈ dashIdx, wsFree kv.1 = true ∧ kv.2.item.digest = kv.1 ∧
      noLB kv.2.item.path = true ∧ (∀ p ∈ kv.2.dupes, noLB p = true) ∧
      kv.2.item.size < 18446744073709551616) ∧
    (dashIdx.map Prod.fst).Nodup ∧
    readerBuild true ((rustLines (serializeIndex dashIdx)).map .ok) =
      .ok dashIdxRead ∧
    dashIdxRead ≠ dashIdx := by
  decide

/-- C2 witness: a well-behaved one-group index with one duplicate round-trips
exactly. -/
theorem serialize_roundtrip_witness :
    (okIdx.map Prod.fst).Nodup ∧ (∀ kv ∈ okIdx, goodEntry kv) ∧
    readerBuild true ((rustLines (serializeIndex okIdx)).map .ok) = .ok okIdx :=
  ⟨by decide, by decide, serialize_roundtrip okIdx (by decide) (by decide)⟩

/-! ## The dupes size report (C5) -/

theorem totalDupeSize_loop (f : Str × TreeItemDupes → Nat) :
    ∀ (l : List (Str × TreeItemDupes)) (a : Nat),
      List.foldl (fun s kv => s + f kv) a l = a + (l.map f).sum := by
  intro l
  induction l with
  | nil => intro a; simp
  | cons kv rest ih =>
    intro a
    rw [List.foldl_cons, ih, List.map_cons, List.sum_cons]
    omega

/-- C5 (amended): the `dupes size` total is the sum over groups of primary
size times duplicate count; a total of 3072 (primary size 1024, 3 duplicates)
is reported as "3 KB" (the KB bucket, right-shift by 10), not "3072 Bytes";
totals past 1 MiB and up to 1 GiB are reported MB-bucketed by right-shift by
20, i.e. truncating division by 2^20. -/
theorem dupes_size_report (ti : TreeIndex) :
    totalDupeSize ti =
      (ti.map fun kv => kv.2.item.size * kv.2.dupes.length).sum ∧
    (1048576 < totalDupeSize ti → totalDupeSize ti ≤ 1073741824 →
      dupesSizeReport ti = (totalDupeSize ti / 2 ^ 20, str "MB")) ∧
    dupesSizeReport exIdxC5 = (3, str "KB") := by
  refine ⟨?_, ?_, by decide⟩
  · rw [totalDupeSize, totalDupeSize_loop, Nat.zero_add]
  · intro h1 h2
    rw [dupesSizeReport]
    simp only [if_neg (by omega : ¬ 1073741824 < totalDupeSize ti), if_pos h1]
    rw [Nat.shiftRight_eq_div_pow]

/-- C5 witness: a group of primary size 2 MiB with one duplicate lands in the
MB bucket as "2 MB". -/
theorem dupes_size_report_witness :
    1048576 < totalDupeSize exIdxMB ∧ totalDupeSize exIdxMB ≤ 1073741824 ∧
    dupesSizeReport exIdxMB = (totalDupeSize exIdxMB / 2 ^ 20, str "MB") ∧
    dupesSizeReport exIdxMB = (2, str "MB") :=
  ⟨by decide, by decide, (dupes_size_report exIdxMB).2.1 (by decide) (by decide),
    by decide⟩

/-- C5 counterexample: on the group with primary size 1024 and 3 duplicates
the command reports "Total saved 3 KB", not "3072 Bytes". -/
theorem dupes_size_report_counterexample :
    totalDupeSize exIdxC5 = 3072 ∧
    dupesSizeReport exIdxC5 ≠ (3072, str "Bytes") ∧
    dupesSizeReport exIdxC5 = (3, str "KB") := by
  decide

/-! ## The Confirm arm (towards C1 and C3) -/

theorem buildItem_path (hash : List Nat → Str) (fs : FS) (p : Str)
    (it : TreeItem) (h : buildItem hash fs false p = .ok it) :
    it.path = p ∧ digestOfFile hash fs p = some it.digest ∧
      metaSize fs p = it.size := by
  rw [buildItem] at h
  rcases hfp : fs p with - | c
  · rw [hfp] at h; cases h
  · rw [hfp] at h
    have hit := (Except.ok.inj h).symm
    rw [hit, digestOfFile, metaSize, hfp]
    exact ⟨rfl, rfl, rfl⟩

theorem buildItem_confirmedItem (hash : List Nat → Str) (fs : FS) (p : Str)
    (it : TreeItem) (h : buildItem hash fs false p = .ok it) :
    confirmedItem hash fs p = some it := by
  rw [buildItem] at h
  rcases hfp : fs p with - | c
  · rw [hfp] at h; cases h
  · rw [hfp] at h
    rw [confirmedItem, hfp]
    exact congrArg some (Except.ok.inj h)

theorem hasDupe_insert_empty (acc : TreeIndex) (d : Str) (it : TreeItem)
    (q : Str) : hasDupe (acc ++ [(d, ⟨it, []⟩)]) q ↔ hasDupe acc q := by
  rw [hasDupe_append]
  constructor
  · rintro (hq | ⟨kv, hmem, hq⟩)
    · exact hq
    · rw [List.mem_singleton] at hmem
      rw [hmem] at hq
      exact absurd hq (List.not_mem_nil q)
  · exact Or.inl

theorem confirmDupes_spec (hash : List Nat → Str) (fs : FS) (sz : Nat) :
    ∀ (ps : List Str) (ti ti2 : TreeIndex),
      confirmDupes hash fs sz ps ti = .ok ti2 →
      ti2.map keyItem = ti.map keyItem ∧
      ∀ q, hasDupe ti2 q ↔ hasDupe ti q ∨
        (q ∈ ps ∧ metaSize fs q = sz ∧
          ∃ dg, digestOfFile hash fs q = some dg ∧ dg ∈ ti.map Prod.fst) := by
  intro ps
  induction ps with
  | nil =>
    intro ti ti2 h
    rw [confirmDupes] at h
    cases h
    exact ⟨rfl, fun q => by simp⟩
  | cons p ps ih =>
    intro ti ti2 h
    rw [confirmDupes] at h
    by_cases hsz : metaSize fs p = sz
    · rw [if_pos hsz] at h
      rcases hbi : buildItem hash fs false p with e | dupe
      · simp only [hbi] at h
        cases h
      · simp only [hbi] at h
        obtain ⟨hpath, hdof, -⟩ := buildItem_path hash fs p dupe hbi
        rcases hlk : idxLookup ti dupe.digest with - | v
        · simp only [hlk] at h
          obtain ⟨hki, hiff⟩ := ih ti ti2 h
          refine ⟨hki, fun q => ?_⟩
          rw [hiff q]
          constructor
          · rintro (hq | hq)
            · exact Or.inl hq
            · exact Or.inr ⟨List.mem_cons_of_mem p hq.1, hq.2⟩
          · rintro (hq | ⟨hmem, hq2, dg, hdg, hdgmem⟩)
            · exact Or.inl hq
            · rcases List.mem_cons.mp hmem with heq | hmem2
              · subst heq
                rw [hdof] at hdg
                rw [← Option.some.inj hdg] at hdgmem
                exact absurd hdgmem
                  ((idxLookup_eq_none_iff ti dupe.digest).mp hlk)
              · exact Or.inr ⟨hmem2, hq2, dg, hdg, hdgmem⟩
        · simp only [hlk] at h
          obtain ⟨hki, hiff⟩ := ih (idxPush ti dupe.digest dupe.path) ti2 h
          have hmemk : dupe.digest ∈ ti.map Prod.fst :=
            idxLookup_mem_of_some ti dupe.digest v hlk
          refine ⟨by rw [hki, idxPush_map_keyItem], fun q => ?_⟩
          rw [hiff q, idxPush_map_fst,
            hasDupe_idxPush ti dupe.digest dupe.path q hmemk]
          constructor
          · rintro ((hq | hq) | ⟨hmem, hrest⟩)
            · exact Or.inl hq
            · have hqp : q = p := hq.trans hpath
              subst hqp
              exact Or.inr ⟨List.mem_cons_self q ps, hsz,
                dupe.digest, hdof, hmemk⟩
            · exact Or.inr ⟨List.mem_cons_of_mem p hmem, hrest⟩
          · rintro (hq | ⟨hmem, hq2, dg, hdg, hdgmem⟩)
            · exact Or.inl (Or.inl hq)
            · rcases List.mem_cons.mp hmem with heq | hmem2
              · subst heq
                exact Or.inl (Or.inr hpath.symm)
              · exact Or.inr ⟨hmem2, hq2, dg, hdg, hdgmem⟩
    · rw [if_neg hsz] at h
      obtain ⟨hki, hiff⟩ := ih ti ti2 h
      refine ⟨hki, fun q => ?_⟩
      rw [hiff q]
      constructor
      · rintro (hq | hq)
        · exact Or.inl hq
        · exact Or.inr ⟨List.mem_cons_of_mem p hq.1, hq.2⟩
      · rintro (hq | ⟨hmem, hq2, dg, hdg, hdgmem⟩)
        · exact Or.inl hq
        · rcases List.mem_cons.mp hmem with heq | hmem2
          · subst heq
            exact absurd hq2 hsz
          · exact Or.inr ⟨hmem2, hq2, dg, hdg, hdgmem⟩

theorem confirmLoop_items (hash : List Nat → Str) (fs : FS) :
    ∀ (input acc out : TreeIndex),
      confirmLoop hash fs input acc = .ok out →
      out.map Prod.fst = acc.map Prod.fst ++ input.map Prod.fst ∧
      out.map (fun kv => some kv.2.item) =
        acc.map (fun kv => some kv.2.item) ++
          input.map (fun kv => confirmedItem hash fs kv.2.item.path) := by
  intro input
  induction input with
  | nil =>
    intro acc out h
    rw [confirmLoop] at h
    cases h
    simp
  | cons kv rest ih =>
    obtain ⟨d, g⟩ := kv
    intro acc out h
    rw [confirmLoop] at h
    rcases hbi : buildItem hash fs false g.item.path with e | item
    · simp only [hbi] at h
      cases h
    · simp only [hbi] at h
      rcases hcd : confirmDupes hash fs g.item.size g.dupes
          (idxInsert acc d ⟨item, []⟩) with e2 | ti2
      · simp only [hcd] at h
        cases h
      · simp only [hcd] at h
        obtain ⟨hk, hi⟩ := ih ti2 out h
        obtain ⟨hki, -⟩ :=
          confirmDupes_spec hash fs g.item.size g.dupes _ ti2 hcd
        have hkeys2 : ti2.map Prod.fst = acc.map Prod.fst ++ [d] := by
          rw [map_fst_of_map_keyItem _ _ hki, idxInsert]
          simp
        have hitems2 : ti2.map (fun kv => some kv.2.item) =
            acc.map (fun kv => some kv.2.item) ++ [some item] := by
          have h2 := congrArg (List.map fun x : Str × TreeItem => some x.2) hki
          rw [List.map_map, List.map_map] at h2
          simpa [Function.comp, keyItem, idxInsert] using h2
        constructor
        · rw [hk, hkeys2, List.map_cons, List.append_assoc]
          rfl
        · rw [hi, hitems2, List.map_cons, List.append_assoc,
            buildItem_confirmedItem hash fs g.item.path item hbi]
          rfl

theorem confirmLoop_dupes (hash : List Nat → Str) (fs : FS) :
    ∀ (input acc out : TreeIndex),
      confirmLoop hash fs input acc = .ok out →
      ∀ q, hasDupe out q ↔ hasDupe acc q ∨
        ∃ j, ∃ hj : j < input.length,
          q ∈ (input.get ⟨j, hj⟩).2.dupes ∧
          metaSize fs q = (input.get ⟨j, hj⟩).2.item.size ∧
          ∃ dg, digestOfFile hash fs q = some dg ∧
            dg ∈ acc.map Prod.fst ++ (input.take (j + 1)).map Prod.fst := by
  intro input
  induction input with
  | nil =>
    intro acc out h q
    rw [confirmLoop] at h
    cases h
    simp
  | cons kv rest ih =>
    obtain ⟨d, g⟩ := kv
    intro acc out h q
    rw [confirmLoop] at h
    rcases hbi : buildItem hash fs false g.item.path with e | item
    · simp only [hbi] at h
      cases h
    · simp only [hbi] at h
      rcases hcd : confirmDupes hash fs g.item.size g.dupes
          (idxInsert acc d ⟨item, []⟩) with e2 | ti2
      · simp only [hcd] at h
        cases h
      · simp only [hcd] at h
        obtain ⟨hki, hiffD⟩ :=
          confirmDupes_spec hash fs g.item.size g.dupes _ ti2 hcd
        have hkeys2 : ti2.map Prod.fst = acc.map Prod.fst ++ [d] := by
          rw [map_fst_of_map_keyItem _ _ hki, idxInsert]
          simp
        have hkeysIns : (idxInsert acc d (⟨item, []⟩ : TreeItemDupes)).map
            Prod.fst = acc.map Prod.fst ++ [d] := by
          simp [idxInsert]
        have hins : ∀ q2, hasDupe (idxInsert acc d (⟨item, []⟩ :
            TreeItemDupes)) q2 ↔ hasDupe acc q2 :=
          fun q2 => hasDupe_insert_empty acc d item q2
        rw [ih ti2 out h q, hiffD q, hins q, hkeysIns, hkeys2]
        constructor
        · rintro ((hq | ⟨hmem, hsz2, dg, hdg, hdgm⟩) |
            ⟨j, hj, hmem, hsz2, dg, hdg, hdgm⟩)
          · exact Or.inl hq
          · refine Or.inr ⟨0, Nat.succ_pos _, hmem, hsz2, dg, hdg, ?_⟩
            simpa using hdgm
          · refine Or.inr ⟨j + 1, Nat.succ_lt_succ hj, hmem, hsz2, dg, hdg, ?_⟩
            rw [List.take_succ_cons, List.map_cons]
            rw [List.append_assoc, List.singleton_append] at hdgm
            exact hdgm
        · rintro (hq | ⟨j, hj, hmem, hsz2, dg, hdg, hdgm⟩)
          · exact Or.inl (Or.inl hq)
          · cases j with
            | zero =>
              refine Or.inl (Or.inr ⟨hmem, hsz2, dg, hdg, ?_⟩)
              simpa using hdgm
            | succ j =>
              refine Or.inr ⟨j, Nat.lt_of_succ_lt_succ hj, hmem, hsz2, dg,
                hdg, ?_⟩
              rw [List.append_assoc, List.singleton_append]
              rw [List.take_succ_cons, List.map_cons] at hdgm
              exact hdgm

/-! ## The digest-equals-key invariant (C1) -/

theorem InvariantHolds_of_keyItem (t1 t2 : TreeIndex)
    (h : t1.map keyItem = t2.map keyItem) (hI : InvariantHolds t2) :
    InvariantHolds t1 := by
  intro kv hk
  have hmem : keyItem kv ∈ t2.map keyItem := by
    rw [← h]
    exact List.mem_map.mpr ⟨kv, hk, rfl⟩
  rcases List.mem_map.mp hmem with ⟨kw, hkw, heq⟩
  have h1 : kw.2.item.digest = kw.1 := hI kw hkw
  have h2 : kw.1 = kv.1 := congrArg (fun x : Str × TreeItem => x.1) heq
  have h3 : kw.2.item = kv.2.item :=
    congrArg (fun x : Str × TreeItem => x.2) heq
  rw [← h3, ← h2]
  exact h1

theorem readerStep_invariant (wd : Bool) (ti : TreeIndex) (digest path : Str)
    (size : Nat) (h : InvariantHolds ti) :
    InvariantHolds (readerStep wd ti digest path size) := by
  rw [readerStep]
  rcases hlk : idxLookup ti digest with - | v
  · simp only [hlk]
    intro kv hk
    rw [idxInsert] at hk
    rcases List.mem_append.mp hk with hk2 | hk2
    · exact h kv hk2
    · rw [List.mem_singleton] at hk2
      subst hk2
      rfl
  · simp only [hlk]
    cases wd
    · simpa using h
    · simpa using InvariantHolds_of_keyItem (idxPush ti digest path) ti
        (idxPush_map_keyItem ti digest path) h

theorem readerLoop_invariant (wd : Bool) :
    ∀ (lines : List (Except Unit Str)) (ti : TreeIndex) (lastd : Str)
      (count : Nat) (out : TreeIndex),
      InvariantHolds ti → readerLoop wd lines ti lastd count = .ok out →
      InvariantHolds out := by
  intro lines
  induction lines with
  | nil =>
    intro ti lastd count out hI h
    rw [readerLoop_nil] at h
    cases h
    exact hI
  | cons l ls ih =>
    intro ti lastd count out hI h
    rcases l with e | line
    · rw [readerLoop_ioError] at h
      cases h
    · rcases hsp : splitFirstWs line with - | ⟨t, rest⟩
      · rw [readerLoop_cons_noDigest wd line ls ti lastd count hsp] at h
        cases h
      · by_cases ht : t = dupeTok
        · subst ht
          rw [readerLoop_cons_dupe wd line ls ti lastd count rest hsp] at h
          exact ih _ _ _ _ (readerStep_invariant wd ti lastd rest 0 hI) h
        · rcases hsp2 : splitFirstWs rest with - | ⟨st, pa⟩
          · rw [readerLoop_cons_noSize wd line ls ti lastd count t rest hsp
              ht hsp2] at h
            cases h
          · rw [readerLoop_cons_prim wd line ls ti lastd count t rest st pa
              hsp ht hsp2] at h
            exact ih _ _ _ _ (readerStep_invariant wd ti t pa _ hI) h

theorem listBuild_invariant (wd : Bool) (l : List TreeItem) :
    InvariantHolds (listBuild wd l) := by
  rw [listBuild]
  suffices h : ∀ (l : List TreeItem) (acc : TreeIndex), InvariantHolds acc →
      InvariantHolds (List.foldl
        (fun ti i =>
          match idxLookup ti i.digest with
          | some _ => if wd then idxPush ti i.digest i.path else ti
          | none => idxInsert ti i.digest ⟨i, []⟩)
        acc l) by
    exact h l [] (fun kv hk => absurd hk (List.not_mem_nil kv))
  intro l
  induction l with
  | nil => exact fun acc hI => hI
  | cons i rest ih =>
    intro acc hI
    rw [List.foldl_cons]
    apply ih
    rcases hlk : idxLookup acc i.digest with - | v
    · simp only [hlk]
      intro kv hk
      rw [idxInsert] at hk
      rcases List.mem_append.mp hk with hk2 | hk2
      · exact hI kv hk2
      · rw [List.mem_singleton] at hk2
        subst hk2
        rfl
    · simp only [hlk]
      cases wd
      · simpa using hI
      · simpa using InvariantHolds_of_keyItem (idxPush acc i.digest i.path)
          acc (idxPush_map_keyItem acc i.digest i.path) hI

/-- C1 (amended): the digest-equals-key invariant holds for every index built
in Empty, From-ScanList and From-persisted-text mode; in Confirm mode the keys
of the new index are the keys of the input index, and each entry's primary is
the full-mode re-digest of the input primary's path — stored under the
original input key, so the invariant holds for a Confirm entry only when that
re-computed digest happens to equal the input key. -/
theorem index_key_invariant :
    InvariantHolds newBuild ∧
    (∀ (wd : Bool) (l : List TreeItem), InvariantHolds (listBuild wd l)) ∧
    (∀ (wd : Bool) (lines : List (Except Unit Str)) (ti : TreeIndex),
      readerBuild wd lines = .ok ti → InvariantHolds ti) ∧
    (∀ (hash : List Nat → Str) (fs : FS) (input out : TreeIndex),
      confirmBuild hash fs input = .ok out →
      out.map Prod.fst = input.map Prod.fst ∧
      out.map (fun kv => some kv.2.item) =
        input.map (fun kv => confirmedItem hash fs kv.2.item.path)) := by
  refine ⟨fun kv hk => absurd hk (List.not_mem_nil kv), listBuild_invariant,
    ?_, ?_⟩
  · intro wd lines ti h
    exact readerLoop_invariant wd lines [] dupeTok 0 ti
      (fun kv hk => absurd hk (List.not_mem_nil kv)) h
  · intro hash fs input out h
    obtain ⟨hk, hi⟩ := confirmLoop_items hash fs input [] out h
    exact ⟨by simpa using hk, by simpa using hi⟩

/-- C1 counterexample: confirming an index whose stored key "a" differs from
the primary's current full-mode digest "x" yields an index violating the
digest-equals-key invariant: the re-digested record is stored under the old
key. -/
theorem index_key_invariant_counterexample :
    confirmBuild exHash exFs exIdxC1 = .ok exOutC1 ∧
    digestOfFile exHash exFs (str "pa") = some (str "x") ∧
    ¬ InvariantHolds exOutC1 := by
  decide

/-- C1 witness: the invariant holds for a reader-built index, and Confirm
preserves the input keys while re-digesting the records. -/
theorem index_key_invariant_witness :
    readerBuild true [Except.ok (str "d 5 p")] =
      .ok [(str "d", ⟨⟨str "d", str "p", 5⟩, []⟩)] ∧
    InvariantHolds [(str "d", ⟨⟨str "d", str "p", 5⟩, []⟩)] ∧
    confirmBuild exHash exFs exIdxC1 = .ok exOutC1 ∧
    exOutC1.map Prod.fst = exIdxC1.map Prod.fst :=
  ⟨by decide,
    index_key_invariant.2.2.1 true [Except.ok (str "d 5 p")] _ (by decide),
    by decide,
    (index_key_invariant.2.2.2 exHash exFs exIdxC1 exOutC1 (by decide)).1⟩

/-! ## Confirm monotonicity (C3) -/

/-- C3 (amended): Confirm never adds a duplicate absent from the input, and a
candidate survives exactly when its current metadata size equals the primary's
recorded size and its full re-hash digest matches a key already present in the
new index when the candidate is checked — i.e. one of the input keys up to and
including the candidate's own group, in iteration order (not a key of the
final index). -/
theorem confirm_monotonic (hash : List Nat → Str) (fs : FS)
    (input out : TreeIndex) (hnd : (input.map Prod.fst).Nodup)
    (hok : confirmBuild hash fs input = .ok out) :
    (∀ q, hasDupe out q → ∃ kv ∈ input, q ∈ kv.2.dupes) ∧
    (∀ q, hasDupe out q ↔
      ∃ j, ∃ hj : j < input.length,
        q ∈ (input.get ⟨j, hj⟩).2.dupes ∧
        metaSize fs q = (input.get ⟨j, hj⟩).2.item.size ∧
        ∃ dg, digestOfFile hash fs q = some dg ∧
          dg ∈ (input.take (j + 1)).map Prod.fst) := by
  have hd := confirmLoop_dupes hash fs input [] out hok
  have hiff : ∀ q, hasDupe out q ↔
      ∃ j, ∃ hj : j < input.length,
        q ∈ (input.get ⟨j, hj⟩).2.dupes ∧
        metaSize fs q = (input.get ⟨j, hj⟩).2.item.size ∧
        ∃ dg, digestOfFile hash fs q = some dg ∧
          dg ∈ (input.take (j + 1)).map Prod.fst := by
    intro q
    rw [hd q]
    constructor
    · rintro (hq | ⟨j, hj, h1, h2, dg, h3, h4⟩)
      · exact absurd hq (hasDupe_nil q)
      · exact ⟨j, hj, h1, h2, dg, h3, by simpa using h4⟩
    · rintro ⟨j, hj, h1, h2, dg, h3, h4⟩
      exact Or.inr ⟨j, hj, h1, h2, dg, h3, by simpa using h4⟩
  refine ⟨fun q hq => ?_, hiff⟩
  rcases (hiff q).mp hq with ⟨j, hj, h1, -⟩
  exact ⟨input.get ⟨j, hj⟩, List.get_mem input j hj, h1⟩

/-- C3 counterexample: the duplicate "pp" of the first group has the matching
size and its full re-hash digest "b" is a key of the confirmed index, yet it
is dropped — because "b" was not yet a key when "pp" was checked.  This
refutes the claim's "drops exactly those whose digest matches no key of the
new index". -/
theorem confirm_monotonic_counterexample :
    confirmBuild exHash exFs exIdxC3 = .ok exOutC3 ∧
    (∃ kv ∈ exIdxC3, str "pp" ∈ kv.2.dupes ∧
      metaSize exFs (str "pp") = kv.2.item.size) ∧
    digestOfFile exHash exFs (str "pp") = some (str "b") ∧
    str "b" ∈ exOutC3.map Prod.fst ∧
    ¬ hasDupe exOutC3 (str "pp") := by
  decide

/-- C3 witness: the amended characterization applied to the two-group index. -/
theorem confirm_monotonic_witness :
    (exIdxC3.map Prod.fst).Nodup ∧
    confirmBuild exHash exFs exIdxC3 = .ok exOutC3 ∧
    (∀ q, hasDupe exOutC3 q → ∃ kv ∈ exIdxC3, q ∈ kv.2.dupes) :=
  ⟨by decide, by decide,
    (confirm_monotonic exHash exFs exIdxC3 exOutC3 (by decide) (by decide)).1⟩

end BestPractices
